import Mathlib

/-!
Verification of the goefivar EFI boot-variable library.

The development shallowly embeds the `efiboot` and `efivar` packages:
byte sequences are `List Nat` (each element intended `< 256`), Go strings
are Lean `String`s, fallible operations return an explicit result type,
and the firmware variable store is an explicit `Store` value.

The EFI Load Option codec itself delegates, in the source, to the native
libefiboot routines (`efi_loadopt_is_valid`, `efi_loadopt_create`, ...),
which are external to this repository; those parts are modelled from the
spec's precise description of the binary layout (§4.1).  The device-path
formatter (`DevicePathToString`, backed by native libefivar) is modelled
as an arbitrary deterministic function parameter `F`.
-/

namespace Goefivar

/-- Errors surfaced by the efiboot / efivar layers: `corrupted` models
`ErrVariableCorrupted`, `formatter` the wrapped `DevicePathToString`
failure, `unimplemented` the "changing device path is unimplemented"
error, `adapter` an underlying store failure. -/
inductive EfiErr where
  | corrupted
  | formatter
  | unimplemented
  | adapter (msg : String)
deriving DecidableEq

/-- Result of a fallible Go call: a value or an error. -/
inductive Res (α : Type) where
  | ok (a : α)
  | err (e : EfiErr)
deriving DecidableEq

/-- Little-endian 16-bit read of the first two bytes (encoding/binary style). -/
def u16le (l : List Nat) : Nat := l.getD 0 0 + 256 * l.getD 1 0

/-- Little-endian 32-bit read of the first four bytes. -/
def u32le (l : List Nat) : Nat :=
  l.getD 0 0 + 256 * l.getD 1 0 + 65536 * l.getD 2 0 + 16777216 * l.getD 3 0

/-- Little-endian 16-bit write. -/
def put16le (n : Nat) : List Nat := [n % 256, n / 256 % 256]

/-- Little-endian 32-bit write. -/
def put32le (n : Nat) : List Nat :=
  [n % 256, n / 256 % 256, n / 65536 % 256, n / 16777216 % 256]

/-- Structured form of one EFI Load Option, mirroring `efiboot.LoadOpt`.
The description is kept as its UTF-16 code units (terminator excluded),
since the record stores it as null-terminated UTF-16LE. -/
structure LoadOpt where
  attributes : Nat
  descUnits : List Nat
  filePath : String
  rawFilePath : List Nat
  optionalData : List Nat
deriving DecidableEq

/-- Scan the byte stream for the description's null UTF-16 terminator,
returning the code units before it and the bytes after it. -/
def findDescEnd : List Nat → Option (List Nat × List Nat)
  | [] => none
  | [_] => none
  | a :: b :: rest =>
    if a + 256 * b = 0 then some ([], rest)
    else (findDescEnd rest).map (fun p => ((a + 256 * b) :: p.1, p.2))

/-- Encode one UTF-16 code unit as two little-endian bytes. -/
def encodeUnit (u : Nat) : List Nat := [u % 256, u / 256]

/-- Modelled from the spec: the Load Option parser (`FromBytes`).  The
structural validation and field extraction are performed in the source by
the native libefiboot accessors, which are not part of this repository;
the spec's §4.1 byte layout (4-byte attributes, 2-byte device-path length,
null-terminated UTF-16LE description, device path, trailing optional
data) is embedded directly.  `F` is the device-path formatter. -/
def fromBytes (F : List Nat → Option String) (bs : List Nat) : Res LoadOpt :=
  if bs.length < 6 then .err .corrupted
  else
    match findDescEnd (bs.drop 6) with
    | none => .err .corrupted
    | some (us, rest) =>
      let L := u16le ((bs.drop 4).take 2)
      if rest.length < L then .err .corrupted
      else
        match F (rest.take L) with
        | none => .err .formatter
        | some s => .ok ⟨u32le (bs.take 4), us, s, rest.take L, rest.drop L⟩

/-- Modelled from the spec: the serializer (`LoadOpt.Bytes`).  The source
first re-renders `rawFilePath` through the formatter and fails with the
"unimplemented" error on any mismatch with `filePath`; the actual byte
rendering is done by the native `efi_loadopt_create`, embedded here as
the spec's §4.1 layout. -/
def loBytes (F : List Nat → Option String) (lo : LoadOpt) : Res (List Nat) :=
  match F lo.rawFilePath with
  | none => .err .formatter
  | some s =>
    if s ≠ lo.filePath then .err .unimplemented
    else .ok (put32le lo.attributes ++ put16le lo.rawFilePath.length ++
      lo.descUnits.flatMap encodeUnit ++ [0, 0] ++ lo.rawFilePath ++ lo.optionalData)

theorem put16le_u16le (l : List Nat) (h2 : l.length = 2) (hb : ∀ b ∈ l, b < 256) :
    put16le (u16le l) = l := by
  match l, h2 with
  | [a, b], _ =>
    have ha := hb a (by simp)
    have hbb := hb b (by simp)
    show put16le (a + 256 * b) = [a, b]
    simp only [put16le, List.cons.injEq, and_true]
    omega

theorem put32le_u32le (l : List Nat) (h4 : l.length = 4) (hb : ∀ b ∈ l, b < 256) :
    put32le (u32le l) = l := by
  match l, h4 with
  | [a, b, c, d], _ =>
    have ha := hb a (by simp)
    have hbb := hb b (by simp)
    have hc := hb c (by simp)
    have hd := hb d (by simp)
    show put32le (a + 256 * b + 65536 * c + 16777216 * d) = [a, b, c, d]
    simp only [put32le, List.cons.injEq, and_true]
    omega

theorem findDescEnd_append (us : List Nat) : ∀ (l rest : List Nat),
    (∀ b ∈ l, b < 256) → findDescEnd l = some (us, rest) →
    us.flatMap encodeUnit ++ 0 :: 0 :: rest = l := by
  induction us with
  | nil =>
    intro l rest hb h
    match l with
    | [] => exact absurd h (by simp [findDescEnd])
    | [_] => exact absurd h (by simp [findDescEnd])
    | a :: b :: r =>
      rw [findDescEnd] at h
      by_cases hz : a + 256 * b = 0
      · rw [if_pos hz] at h
        have hr : r = rest := congrArg Prod.snd (Option.some.inj h)
        have ha : a = 0 := by omega
        have hbz : b = 0 := by omega
        subst hr; subst ha; subst hbz
        simp
      · rw [if_neg hz, Option.map_eq_some'] at h
        obtain ⟨p, _, hp⟩ := h
        have hfst : (a + 256 * b) :: p.1 = [] := congrArg Prod.fst hp
        simp at hfst
  | cons u us ih =>
    intro l rest hb h
    match l with
    | [] => exact absurd h (by simp [findDescEnd])
    | [_] => exact absurd h (by simp [findDescEnd])
    | a :: b :: r =>
      rw [findDescEnd] at h
      by_cases hz : a + 256 * b = 0
      · rw [if_pos hz] at h
        have hfst : ([] : List Nat) = u :: us := congrArg Prod.fst (Option.some.inj h)
        simp at hfst
      · rw [if_neg hz, Option.map_eq_some'] at h
        obtain ⟨⟨p1, p2⟩, hpr, hp⟩ := h
        injection hp with hfst hsnd
        injection hfst with hu hus
        simp only at hus hsnd
        have hpr' : findDescEnd r = some (us, rest) := by rw [hpr, hus, hsnd]
        have ha : a < 256 := hb a (by simp)
        have hbb : b < 256 := hb b (by simp)
        have ihr := ih r rest (fun x hx => hb x (by simp [hx])) hpr'
        have he : encodeUnit u = [a, b] := by
          rw [← hu]
          simp only [encodeUnit, List.cons.injEq, and_true]
          omega
        rw [List.flatMap_cons, he, List.append_assoc, ihr]
        rfl

/-- C1: parsing a byte sequence successfully into a `LoadOpt` and
re-serializing it without modification reproduces the exact original
bytes, for any deterministic device-path formatter `F`. -/
theorem claim1_parse_serialize_roundtrip (F : List Nat → Option String)
    (bs : List Nat) (lo : LoadOpt)
    (hb : ∀ b ∈ bs, b < 256) (h : fromBytes F bs = .ok lo) :
    loBytes F lo = .ok bs := by
  unfold fromBytes at h
  by_cases hlen : bs.length < 6
  · simp [hlen] at h
  · rw [if_neg hlen] at h
    cases hfd : findDescEnd (bs.drop 6) with
    | none => rw [hfd] at h; simp at h
    | some p =>
      obtain ⟨us, rest⟩ := p
      rw [hfd] at h
      simp only at h
      by_cases hrl : rest.length < u16le ((bs.drop 4).take 2)
      · rw [if_pos hrl] at h; simp at h
      · rw [if_neg hrl] at h
        cases hF : F (rest.take (u16le ((bs.drop 4).take 2))) with
        | none => rw [hF] at h; simp at h
        | some s =>
          rw [hF] at h
          simp only [Res.ok.injEq] at h
          subst h
          unfold loBytes
          simp only [hF]
          rw [if_neg (fun hne => hne rfl)]
          simp only [Res.ok.injEq]
          -- lengths and byte bounds of the header chunks
          have htake4 : (bs.take 4).length = 4 := by
            simp [List.length_take]; omega
          have htake2 : ((bs.drop 4).take 2).length = 2 := by
            simp [List.length_take, List.length_drop]; omega
          have hb4 : ∀ b ∈ bs.take 4, b < 256 :=
            fun b hbm => hb b (List.take_subset _ _ hbm)
          have hb2 : ∀ b ∈ (bs.drop 4).take 2, b < 256 :=
            fun b hbm => hb b (List.drop_subset _ _ (List.take_subset _ _ hbm))
          have hb6 : ∀ b ∈ bs.drop 6, b < 256 :=
            fun b hbm => hb b (List.drop_subset _ _ hbm)
          have hdp : (rest.take (u16le ((bs.drop 4).take 2))).length
              = u16le ((bs.drop 4).take 2) := by
            simp [List.length_take]; omega
          have hdesc : us.flatMap encodeUnit ++ 0 :: 0 :: rest = bs.drop 6 :=
            findDescEnd_append us _ _ hb6 hfd
          have hdd : (bs.drop 4).drop 2 = bs.drop 6 := by
            simp [List.drop_drop]
          rw [hdp, put32le_u32le _ htake4 hb4, put16le_u16le _ htake2 hb2]
          simp only [List.append_assoc, List.cons_append, List.nil_append]
          rw [List.take_append_drop, hdesc, ← hdd, List.take_append_drop,
            List.take_append_drop]

/-- Witness for C1 at a concrete Load Option byte sequence. -/
theorem claim1_parse_serialize_roundtrip_witness :
    loBytes (fun _ => some "P") ⟨1, [65], "P", [127, 255, 4, 0], []⟩ =
      .ok [1, 0, 0, 0, 4, 0, 65, 0, 0, 0, 127, 255, 4, 0] :=
  claim1_parse_serialize_roundtrip (fun _ => some "P")
    [1, 0, 0, 0, 4, 0, 65, 0, 0, 0, 127, 255, 4, 0]
    ⟨1, [65], "P", [127, 255, 4, 0], []⟩ (by decide) (by decide)

/-- C2: a `LoadOpt` whose `filePath` differs from the canonical rendering
of its `rawFilePath` bytes fails to serialize with the "unimplemented"
error, whatever the other fields hold. -/
theorem claim2_mutation_guard (F : List Nat → Option String) (lo : LoadOpt) (s : String)
    (hF : F lo.rawFilePath = some s) (hne : lo.filePath ≠ s) :
    loBytes F lo = .err .unimplemented := by
  unfold loBytes
  rw [hF]
  exact if_pos hne.symm

/-- Witness for C2: setting `filePath` to "foo" while the device path
renders to "P" makes serialization fail. -/
theorem claim2_mutation_guard_witness :
    loBytes (fun _ => some "P") ⟨1, [65], "foo", [127, 255, 4, 0], [7]⟩ =
      .err .unimplemented :=
  claim2_mutation_guard (fun _ => some "P") ⟨1, [65], "foo", [127, 255, 4, 0], [7]⟩
    "P" rfl (by decide)

/-! Optional data interpreters (`efiboot.OptionalData`). -/

/-- Go `utf16.Decode`: code units outside the surrogate range pass
through, a high surrogate followed by a low surrogate combines into one
code point, and any unpaired surrogate becomes U+FFFD. -/
def utf16Decode : List Nat → List Nat
  | [] => []
  | [u] => if u < 0xD800 ∨ 0xE000 ≤ u then [u] else [0xFFFD]
  | u :: u2 :: rest =>
    if u < 0xD800 ∨ 0xE000 ≤ u then u :: utf16Decode (u2 :: rest)
    else if u < 0xDC00 ∧ 0xDC00 ≤ u2 ∧ u2 < 0xE000 then
      (0x10000 + (u - 0xD800) * 0x400 + (u2 - 0xDC00)) :: utf16Decode rest
    else 0xFFFD :: utf16Decode (u2 :: rest)

/-- Code units as computed by `InterpretAsUCS2` in the source: the Go
expression `uint16(d[n]) | uint16(d[n+1]<<8)` shifts the byte `d[n+1]`
inside its 8-bit type, so the second byte contributes
`(d[n+1] * 256) % 256`. -/
def ucs2Units : List Nat → List Nat
  | a :: b :: rest => Nat.lor a (b * 256 % 256) :: ucs2Units rest
  | _ => []

/-- `OptionalData.InterpretAsUCS2`: odd-length input yields the empty
string, otherwise the bytes are paired into code units and UTF-16
decoded. -/
def interpretAsUCS2 (d : List Nat) : String :=
  if d.length % 2 ≠ 0 then ""
  else ⟨(utf16Decode (ucs2Units d)).map Char.ofNat⟩

/-- Modelled from the spec: genuine UTF-16LE pairing, with the first
byte of each pair as the low-order byte and the second as the
high-order byte. -/
def specUCS2Units : List Nat → List Nat
  | a :: b :: rest => (a + 256 * b) :: specUCS2Units rest
  | _ => []

/-- Modelled from the spec: UCS-2 interpretation with correct UTF-16LE
byte pairing. -/
def specInterpretAsUCS2 (d : List Nat) : String :=
  if d.length % 2 ≠ 0 then ""
  else ⟨(utf16Decode (specUCS2Units d)).map Char.ofNat⟩

/-- C5 evidence: on the two bytes 0x3A 0x04 the code returns ":" (the
high-order byte is lost to the 8-bit shift), while UTF-16LE decoding as
claimed yields the single code point U+043A. -/
theorem claim5_ucs2_high_byte_dropped :
    interpretAsUCS2 [0x3A, 0x04] = ":" ∧
    specInterpretAsUCS2 [0x3A, 0x04] = "к" ∧
    interpretAsUCS2 [0x3A, 0x04] ≠ specInterpretAsUCS2 [0x3A, 0x04] :=
  ⟨by decide, by decide, by decide⟩

/-- C8: an odd-length byte sequence decodes as the empty string. -/
theorem claim8_odd_length_ucs2_empty (d : List Nat) (h : d.length % 2 = 1) :
    interpretAsUCS2 d = "" := by
  unfold interpretAsUCS2
  rw [if_pos (by omega)]

/-- Witness for C8 on a concrete three-byte input. -/
theorem claim8_odd_length_ucs2_empty_witness :
    ([1, 2, 3] : List Nat).length % 2 = 1 ∧ interpretAsUCS2 [1, 2, 3] = "" :=
  ⟨by decide, claim8_odd_length_ucs2_empty [1, 2, 3] (by decide)⟩

/-- Go `strconv.IsPrint` restricted to the 7-bit range: for runes below
0x80 the printable runes are exactly 0x20 through 0x7E.  The source
consults IsPrint only after checking `b < utf8.RuneSelf`. -/
def isPrintASCII (b : Nat) : Bool := 32 ≤ b && b ≤ 126

/-- `OptionalData.String`: every output byte starts as '.' (46) and is
overwritten with the input byte when that byte is below `utf8.RuneSelf`
(128) and printable. -/
def odString (d : List Nat) : List Nat :=
  d.map (fun b => if b < 128 && isPrintASCII b then b else 46)

/-- C9: the debug rendering preserves length, keeps printable 7-bit
ASCII bytes unchanged and replaces every other byte with '.'. -/
theorem claim9_debug_rendering (d : List Nat) :
    (odString d).length = d.length ∧
    ∀ i : Fin d.length,
      (odString d).getD i 0 =
        if d.get i < 128 && isPrintASCII (d.get i) then d.get i else 46 := by
  constructor
  · simp [odString]
  · intro i
    rw [List.getD_eq_getElem?_getD, odString, List.getElem?_map,
      List.getElem?_eq_getElem i.isLt]
    simp [List.get_eq_getElem]

/-! Firmware variable model (`efivar` package) and the boot-variable
resolver (`efiboot`). -/

/-- Name of a firmware variable (`efivar.VariableName`): vendor GUID in
its 16-byte `uuid.UUID` form, plus the string name. -/
structure VariableName where
  guid : List Nat
  name : String
deriving DecidableEq

/-- GlobalUUID, the well-known EFI global namespace
8be4df61-93ca-11d2-aa0d-00e098032b8c, in `uuid.UUID` byte order. -/
def globalUUID : List Nat :=
  [0x8b, 0xe4, 0xdf, 0x61, 0x93, 0xca, 0x11, 0xd2,
   0xaa, 0x0d, 0x00, 0xe0, 0x98, 0x03, 0x2b, 0x8c]

def BootCurrentName : VariableName := ⟨globalUUID, "BootCurrent"⟩

def BootNextName : VariableName := ⟨globalUUID, "BootNext"⟩

def BootOrderName : VariableName := ⟨globalUUID, "BootOrder"⟩

/-- Raw firmware variable (`efivar.Variable`): name, data bytes,
attribute bits. -/
structure Variable where
  varName : VariableName
  data : List Nat
  attrs : Nat
deriving DecidableEq

/-- Abstract firmware variable store: `vars` models `efivar.Variables()`
and `getVar` models `VariableName.Get`, yielding data bytes and
attributes. -/
structure Store where
  vars : List VariableName
  getVar : VariableName → Res (List Nat × Nat)

/-- Go `strings.HasPrefix`, over the characters of the two strings. -/
def hasPre : List Char → List Char → Bool
  | [], _ => true
  | _ :: _, [] => false
  | a :: ps, b :: ss => a = b && hasPre ps ss

/-- Filter applied by `BootOptions`: global namespace, name starting
with "Boot", name of byte length 8 (`len("Boot0000")`), and not the
literal "BootNext". -/
def keepBootVar (vn : VariableName) : Bool :=
  decide (vn.guid = globalUUID) && hasPre "Boot".data vn.name.data &&
    decide (vn.name.utf8ByteSize = 8) && decide (vn.name ≠ "BootNext")

/-- Pairing of a raw variable with its parsed load option
(`efiboot.BootOption`). -/
structure BootOption where
  var : Variable
  loadOpt : LoadOpt
deriving DecidableEq

/-- Outcome of `BootOptions`.  The dedicated `panicked` constructor
records the nil-pointer dereference the source performs when `Get`
fails: the error message formats `v.Name` while `v` is nil. -/
inductive BootRes where
  | ok (l : List BootOption)
  | err (e : EfiErr)
  | panicked
deriving DecidableEq

/-- Body of the `BootOptions` loop over the listed variable names. -/
def bootOptionsLoop (F : List Nat → Option String) (s : Store) :
    List VariableName → BootRes
  | [] => .ok []
  | vn :: rest =>
    if keepBootVar vn then
      match s.getVar vn with
      | .err _ => .panicked
      | .ok (d, a) =>
        match fromBytes F d with
        | .err e => .err e
        | .ok lo =>
          match bootOptionsLoop F s rest with
          | .ok l => .ok (⟨⟨vn, d, a⟩, lo⟩ :: l)
          | r => r
    else bootOptionsLoop F s rest

/-- Bytewise lexicographic strict order of Go string comparison. -/
def strLt : List Char → List Char → Bool
  | [], [] => false
  | [], _ :: _ => true
  | _ :: _, [] => false
  | a :: as, b :: bs =>
    if a.toNat < b.toNat then true
    else if b.toNat < a.toNat then false
    else strLt as bs

/-- Non-strict Go string order, as used by the `sort.Slice` outcome. -/
def goStrLe (x y : String) : Bool := !(strLt y.data x.data)

/-- Ascending-by-variable-name order on boot options. -/
def leByName (x y : BootOption) : Prop :=
  goStrLe x.var.varName.name y.var.varName.name = true

instance : DecidableRel leByName := fun x y => by
  unfold leByName; infer_instance

/-- `BootOptions`: run the filter/fetch/parse loop, then sort the
results ascending by variable name. -/
def bootOptions (F : List Nat → Option String) (s : Store) : BootRes :=
  match bootOptionsLoop F s s.vars with
  | .ok l => .ok (l.insertionSort leByName)
  | r => r

/-- Uppercase hexadecimal digit. -/
def hexDigit (n : Nat) : Char :=
  if n < 10 then Char.ofNat (48 + n) else Char.ofNat (55 + n)

/-- Rendering of one byte as `%02X` (exact for values below 256). -/
def hex2 (b : Nat) : String := ⟨[hexDigit (b / 16), hexDigit (b % 16)]⟩

/-- Boot entry name `fmt.Sprintf("Boot%02X%02X", hi, lo)`. -/
def bootIndexName (hi lo : Nat) : String := "Boot" ++ hex2 hi ++ hex2 lo

/-- `varsInOtherVar`: fetch the variable, reject an odd byte length as
corrupted, else produce one `Boot####` name per 16-bit little-endian
index, the two stored bytes swapped in the rendering. -/
def varsInOtherVar (s : Store) (vn : VariableName) : Res (List VariableName) :=
  match s.getVar vn with
  | .err e => .err e
  | .ok (d, _) =>
    if d.length % 2 = 1 then .err .corrupted
    else .ok ((List.range (d.length / 2)).map (fun n =>
      ⟨globalUUID, bootIndexName (d.getD (n * 2 + 1) 0) (d.getD (n * 2) 0)⟩))

/-- `varInOtherVar`: as above but requiring exactly one decoded index. -/
def varInOtherVar (s : Store) (vn : VariableName) : Res VariableName :=
  match varsInOtherVar s vn with
  | .err e => .err e
  | .ok outs =>
    if outs.length ≠ 1 then .err .corrupted
    else .ok (outs.getD 0 ⟨[], ""⟩)

def bootCurrent (s : Store) : Res VariableName := varInOtherVar s BootCurrentName

def bootNext (s : Store) : Res VariableName := varInOtherVar s BootNextName

def bootOrder (s : Store) : Res (List VariableName) := varsInOtherVar s BootOrderName

/-- C4 evidence: when fetching a surviving entry fails, `BootOptions`
dereferences the nil `Variable` pointer while formatting the error
(`v.Name` with `v == nil`), modelled by the `panicked` outcome, instead
of returning the failure as an error. -/
theorem claim4_get_failure_dereferences_nil :
    bootOptions (fun _ => some "P")
      ⟨[⟨globalUUID, "Boot0001"⟩], fun _ => .err (.adapter "EIO")⟩ = .panicked := by
  decide

/-- C6: resolving a single-index variable succeeds exactly when the
fetched data is two bytes long, mapping them, swapped, to a `Boot####`
name; any other even length and any odd length is a corruption error. -/
theorem claim6_single_index_resolution (s : Store) (vn : VariableName)
    (d : List Nat) (a : Nat) (hg : s.getVar vn = .ok (d, a)) :
    varInOtherVar s vn =
      if d.length = 2 then
        .ok ⟨globalUUID, bootIndexName (d.getD 1 0) (d.getD 0 0)⟩
      else .err .corrupted := by
  have hv : varsInOtherVar s vn =
      if d.length % 2 = 1 then .err .corrupted
      else .ok ((List.range (d.length / 2)).map (fun n =>
        ⟨globalUUID, bootIndexName (d.getD (n * 2 + 1) 0) (d.getD (n * 2) 0)⟩)) := by
    unfold varsInOtherVar
    simp only [hg]
  unfold varInOtherVar
  rw [hv]
  by_cases h2 : d.length = 2
  · rw [if_pos h2, if_neg (by omega : ¬ d.length % 2 = 1)]
    have hh : d.length / 2 = 1 := by omega
    rw [hh]
    simp [List.range_succ]
  · rw [if_neg h2]
    by_cases hodd : d.length % 2 = 1
    · rw [if_pos hodd]
    · rw [if_neg hodd]
      have hne : ((List.range (d.length / 2)).map (fun n =>
          (⟨globalUUID, bootIndexName (d.getD (n * 2 + 1) 0) (d.getD (n * 2) 0)⟩ :
            VariableName))).length ≠ 1 := by
        simp only [List.length_map, List.length_range]
        omega
      simp only []
      rw [if_pos hne]

/-- Witness for C6: the two stored bytes 0x3A 0x00 resolve BootCurrent
to the name Boot003A. -/
theorem claim6_single_index_resolution_witness :
    bootCurrent ⟨[], fun vn =>
        if vn = BootCurrentName then .ok ([0x3A, 0x00], 7) else .err (.adapter "x")⟩ =
      .ok ⟨globalUUID, "Boot003A"⟩ := by
  rw [bootCurrent, claim6_single_index_resolution _ BootCurrentName [0x3A, 0x00] 7
    (by decide)]
  decide

/-- Consecutive little-endian byte pairs of a byte sequence, written as
a direct recursion; used to state C7 independently of the index-based
loop in the source. -/
def pairsLE : List Nat → List (Nat × Nat)
  | a :: b :: rest => (a, b) :: pairsLE rest
  | _ => []

theorem range_map_pairsLE (f : Nat → Nat → VariableName) :
    ∀ d : List Nat, d.length % 2 = 0 →
    (List.range (d.length / 2)).map
        (fun n => f (d.getD (n * 2 + 1) 0) (d.getD (n * 2) 0)) =
      (pairsLE d).map (fun p => f p.2 p.1)
  | [], _ => by simp [pairsLE]
  | [x], h => by simp at h
  | a :: b :: r, h => by
    have ih := range_map_pairsLE f r (by
      simp only [List.length_cons] at h
      omega)
    have hfun : ∀ n : Nat,
        f ((a :: b :: r).getD ((n + 1) * 2 + 1) 0) ((a :: b :: r).getD ((n + 1) * 2) 0)
          = f (r.getD (n * 2 + 1) 0) (r.getD (n * 2) 0) := by
      intro n
      have e1 : (n + 1) * 2 + 1 = n * 2 + 1 + 2 := by ring
      have e2 : (n + 1) * 2 = n * 2 + 2 := by ring
      rw [e1, e2]
      rfl
    have hlen : (a :: b :: r).length / 2 = r.length / 2 + 1 := by
      simp only [List.length_cons]
      omega
    rw [hlen, List.range_succ_eq_map, List.map_cons, List.map_map]
    rw [show pairsLE (a :: b :: r) = (a, b) :: pairsLE r from rfl, List.map_cons]
    congr 1
    calc (List.range (r.length / 2)).map
          ((fun n => f ((a :: b :: r).getD (n * 2 + 1) 0) ((a :: b :: r).getD (n * 2) 0))
            ∘ Nat.succ)
        = (List.range (r.length / 2)).map
            (fun n => f (r.getD (n * 2 + 1) 0) (r.getD (n * 2) 0)) :=
          List.map_congr_left (fun n _ => hfun n)
      _ = (pairsLE r).map (fun p => f p.2 p.1) := ih

/-- C7: resolving BootOrder fails as corrupted exactly on odd byte
length, and otherwise returns one resolved `Boot####` name per 16-bit
index, in storage order, any element count included. -/
theorem claim7_index_list_resolution (s : Store) (d : List Nat) (a : Nat)
    (hg : s.getVar BootOrderName = .ok (d, a)) :
    (d.length % 2 = 1 → bootOrder s = .err .corrupted) ∧
    (d.length % 2 = 0 → bootOrder s =
      .ok ((pairsLE d).map (fun p =>
        ⟨globalUUID, bootIndexName p.2 p.1⟩))) := by
  have hv : varsInOtherVar s BootOrderName =
      if d.length % 2 = 1 then .err .corrupted
      else .ok ((List.range (d.length / 2)).map (fun n =>
        ⟨globalUUID, bootIndexName (d.getD (n * 2 + 1) 0) (d.getD (n * 2) 0)⟩)) := by
    unfold varsInOtherVar
    simp only [hg]
  constructor
  · intro hodd
    unfold bootOrder
    rw [hv, if_pos hodd]
  · intro heven
    unfold bootOrder
    rw [hv, if_neg (by omega : ¬ d.length % 2 = 1)]
    exact congrArg Res.ok
      (range_map_pairsLE (fun hi lo => ⟨globalUUID, bootIndexName hi lo⟩) d heven)

/-- Witness for C7: BootOrder bytes 01 00 3A 00 resolve, in order, to
Boot0001 and Boot003A. -/
theorem claim7_index_list_resolution_witness :
    bootOrder ⟨[], fun vn =>
        if vn = BootOrderName then .ok ([0x01, 0x00, 0x3A, 0x00], 7)
        else .err (.adapter "x")⟩ =
      .ok [⟨globalUUID, "Boot0001"⟩, ⟨globalUUID, "Boot003A"⟩] := by
  rw [(claim7_index_list_resolution _ [0x01, 0x00, 0x3A, 0x00] 7 (by decide)).2
    (by decide)]
  decide

theorem strLt_asymm : ∀ x y : List Char, strLt x y = true → strLt y x = false := by
  intro x
  induction x with
  | nil =>
    intro y h
    cases y with
    | nil => simp [strLt] at h
    | cons b bs => simp [strLt]
  | cons a as ih =>
    intro y h
    cases y with
    | nil => simp [strLt] at h
    | cons b bs =>
      rw [strLt] at h ⊢
      by_cases h1 : a.toNat < b.toNat
      · rw [if_neg (by omega), if_pos h1]
      · by_cases h2 : b.toNat < a.toNat
        · rw [if_neg h1, if_pos h2] at h
          exact absurd h (by simp)
        · rw [if_neg h1, if_neg h2] at h
          rw [if_neg h2, if_neg h1]
          exact ih bs h

theorem strLt_false_trans : ∀ x y z : List Char,
    strLt y x = false → strLt z y = false → strLt z x = false := by
  intro x
  induction x with
  | nil =>
    intro y z _ _
    cases z <;> rfl
  | cons a as ih =>
    intro y z h1 h2
    cases y with
    | nil => simp [strLt] at h1
    | cons b bs =>
      cases z with
      | nil => simp [strLt] at h2
      | cons c cs =>
        rw [strLt] at h1 h2 ⊢
        by_cases hba : b.toNat < a.toNat
        · rw [if_pos hba] at h1
          exact absurd h1 (by simp)
        · by_cases hcb : c.toNat < b.toNat
          · rw [if_pos hcb] at h2
            exact absurd h2 (by simp)
          · rw [if_neg (by omega : ¬ c.toNat < a.toNat)]
            by_cases hac : a.toNat < c.toNat
            · rw [if_pos hac]
            · rw [if_neg hac]
              have hab : ¬ a.toNat < b.toNat := by omega
              have hbc : ¬ b.toNat < c.toNat := by omega
              rw [if_neg hba, if_neg hab] at h1
              rw [if_neg hcb, if_neg hbc] at h2
              exact ih bs cs h1 h2

instance : IsTotal BootOption leByName :=
  ⟨by
    intro x y
    unfold leByName goStrLe
    by_cases h : strLt y.var.varName.name.data x.var.varName.name.data = true
    · right
      simp [strLt_asymm _ _ h]
    · left
      simp [Bool.not_eq_true] at h
      simp [h]⟩

instance : IsTrans BootOption leByName :=
  ⟨by
    intro x y z h1 h2
    unfold leByName goStrLe at h1 h2 ⊢
    simp only [Bool.not_eq_true'] at h1 h2 ⊢
    exact strLt_false_trans _ _ _ h1 h2⟩

/-- Fetch-and-parse of one surviving variable name, as performed inside
the `BootOptions` loop; `none` models any per-entry failure. -/
def fetchParse (F : List Nat → Option String) (s : Store) (vn : VariableName) :
    Option BootOption :=
  match s.getVar vn with
  | .err _ => none
  | .ok (d, a) =>
    match fromBytes F d with
    | .err _ => none
    | .ok lo => some ⟨⟨vn, d, a⟩, lo⟩

theorem bootOptionsLoop_ok (F : List Nat → Option String) (s : Store) :
    ∀ vns : List VariableName,
    (∀ vn ∈ vns, keepBootVar vn = true → (fetchParse F s vn).isSome = true) →
    ∃ l, bootOptionsLoop F s vns = .ok l ∧
      l.map (fun bo => bo.var.varName) = vns.filter keepBootVar := by
  intro vns
  induction vns with
  | nil => exact fun _ => ⟨[], rfl, rfl⟩
  | cons vn rest ih =>
    intro h
    obtain ⟨l, hl, hmap⟩ := ih (fun v hv hkv => h v (by simp [hv]) hkv)
    by_cases hk : keepBootVar vn = true
    · have hs := h vn (by simp) hk
      cases hg : s.getVar vn with
      | err e => rw [fetchParse, hg] at hs; simp at hs
      | ok da =>
        obtain ⟨d, a⟩ := da
        cases hp : fromBytes F d with
        | err e => rw [fetchParse, hg] at hs; simp only [] at hs; rw [hp] at hs; simp at hs
        | ok lo =>
          refine ⟨⟨⟨vn, d, a⟩, lo⟩ :: l, ?_, ?_⟩
          · rw [bootOptionsLoop, if_pos hk, hg]
            simp only []
            rw [hp]
            simp only []
            rw [hl]
          · rw [List.map_cons, List.filter_cons, if_pos hk, hmap]
    · refine ⟨l, ?_, ?_⟩
      · rw [bootOptionsLoop, if_neg hk, hl]
      · rw [List.filter_cons, if_neg hk, hmap]

/-- C3 (amended): enumeration keeps exactly the variables of the global
namespace whose name starts with "Boot", has byte length 8 and is not
the literal "BootNext" — whenever every surviving entry fetches and
parses — and returns them sorted ascending by variable name. -/
theorem claim3_enumeration_filter_sorted (F : List Nat → Option String) (s : Store)
    (h : ∀ vn ∈ s.vars, keepBootVar vn = true → (fetchParse F s vn).isSome = true) :
    ∃ l, bootOptions F s = .ok l ∧
      (l.map (fun bo => bo.var.varName)).Perm (s.vars.filter keepBootVar) ∧
      List.Sorted leByName l := by
  obtain ⟨l0, hl0, hmap⟩ := bootOptionsLoop_ok F s s.vars h
  refine ⟨l0.insertionSort leByName, ?_, ?_, ?_⟩
  · rw [bootOptions, hl0]
  · have hperm := (List.perm_insertionSort leByName l0).map (fun bo => bo.var.varName)
    rw [hmap] at hperm
    exact hperm
  · exact List.sorted_insertionSort leByName l0

/-- Modelled from the claim's wording: a name of the literal form `Boot`
followed by exactly 4 uppercase hexadecimal digits, other than
"BootNext". -/
def isUpperHexDigit (c : Char) : Bool :=
  (48 ≤ c.toNat && c.toNat ≤ 57) || (65 ≤ c.toNat && c.toNat ≤ 70)

/-- Modelled from the claim's wording: the claimed enumeration filter. -/
def specBootHexName (s : String) : Bool :=
  hasPre "Boot".data s.data && decide (s.data.length = 8) &&
    (s.data.drop 4).all isUpperHexDigit && decide (s ≠ "BootNext")

/-- C3 counterexample: the source filter keeps any 8-byte name starting
with "Boot", so enumeration returns an entry for "BootWXYZ" even though
that name is not `Boot` followed by 4 uppercase hexadecimal digits. -/
theorem claim3_enumeration_keeps_non_hex_name :
    bootOptions (fun _ => some "P")
      ⟨[⟨globalUUID, "BootWXYZ"⟩],
       fun _ => .ok ([1, 0, 0, 0, 4, 0, 65, 0, 0, 0, 127, 255, 4, 0], 0)⟩ =
      .ok [⟨⟨⟨globalUUID, "BootWXYZ"⟩,
             [1, 0, 0, 0, 4, 0, 65, 0, 0, 0, 127, 255, 4, 0], 0⟩,
            ⟨1, [65], "P", [127, 255, 4, 0], []⟩⟩] ∧
    specBootHexName "BootWXYZ" = false :=
  ⟨by decide, by decide⟩

/-- Witness for the amended C3 at the six-name store of the claim:
exactly Boot0001 and Boot000A survive, sorted ascending. -/
theorem claim3_enumeration_filter_sorted_witness :
    ∃ l, bootOptions (fun _ => some "P")
        ⟨[⟨globalUUID, "BootOrder"⟩, ⟨globalUUID, "Boot000A"⟩,
          ⟨globalUUID, "BootNext"⟩, ⟨globalUUID, "Boot0001"⟩,
          ⟨globalUUID, "BootCurrent"⟩, ⟨globalUUID, "BootSomethingLong"⟩],
         fun _ => .ok ([1, 0, 0, 0, 4, 0, 65, 0, 0, 0, 127, 255, 4, 0], 0)⟩ = .ok l ∧
      (l.map (fun bo => bo.var.varName)).Perm
        [⟨globalUUID, "Boot000A"⟩, ⟨globalUUID, "Boot0001"⟩] ∧
      List.Sorted leByName l :=
  claim3_enumeration_filter_sorted (fun _ => some "P")
    ⟨[⟨globalUUID, "BootOrder"⟩, ⟨globalUUID, "Boot000A"⟩,
      ⟨globalUUID, "BootNext"⟩, ⟨globalUUID, "Boot0001"⟩,
      ⟨globalUUID, "BootCurrent"⟩, ⟨globalUUID, "BootSomethingLong"⟩],
     fun _ => .ok ([1, 0, 0, 0, 4, 0, 65, 0, 0, 0, 127, 255, 4, 0], 0)⟩
    (by decide)

/-! GUID conversions (`efivar.uuidToEFI` / `efivar.efiToUUID`). -/

/-- Host byte order (`efivar.endianness`): little or big endian. -/
inductive ByteOrder where
  | little
  | big
deriving DecidableEq

/-- 16-bit read of the first two bytes in the given byte order
(encoding/binary `Uint16`). -/
def bo16 (o : ByteOrder) (l : List Nat) : Nat :=
  match o with
  | .big => 256 * l.getD 0 0 + l.getD 1 0
  | .little => l.getD 0 0 + 256 * l.getD 1 0

/-- 16-bit write in the given byte order (encoding/binary `PutUint16`). -/
def boPut16 (o : ByteOrder) (n : Nat) : List Nat :=
  match o with
  | .big => [n / 256 % 256, n % 256]
  | .little => [n % 256, n / 256 % 256]

/-- 32-bit big-endian read (`uuidByteOrder.Uint32`). -/
def beU32 (l : List Nat) : Nat :=
  16777216 * l.getD 0 0 + 65536 * l.getD 1 0 + 256 * l.getD 2 0 + l.getD 3 0

/-- 32-bit big-endian write (`uuidByteOrder.PutUint32`). -/
def bePut32 (n : Nat) : List Nat :=
  [n / 16777216 % 256, n / 65536 % 256, n / 256 % 256, n % 256]

/-- EFI GUID struct (`C.efi_guid_t`): fields a, b, c, d and the six
trailing bytes e. -/
structure EfiGuid where
  a : Nat
  b : Nat
  c : Nat
  d : Nat
  e : List Nat
deriving DecidableEq

/-- `uuidToEFI`: big-endian reads of bytes 0..3, 4..5 and 6..7,
host-order read of bytes 8..9, bytes 10..15 copied verbatim. -/
def uuidToEFI (o : ByteOrder) (u : List Nat) : EfiGuid :=
  ⟨beU32 (u.take 4), bo16 .big ((u.drop 4).take 2), bo16 .big ((u.drop 6).take 2),
   bo16 o ((u.drop 8).take 2), (u.drop 10).take 6⟩

/-- `efiToUUID`: the inverse writes, with the same host order used for
field d. -/
def efiToUUID (o : ByteOrder) (g : EfiGuid) : List Nat :=
  bePut32 g.a ++ boPut16 .big g.b ++ boPut16 .big g.c ++ boPut16 o g.d ++ g.e

/-- C10: converting a 16-byte UUID to the EFI GUID representation and
back is the identity, for either host byte order. -/
theorem claim10_uuid_efi_roundtrip (o : ByteOrder) (u : List Nat)
    (hlen : u.length = 16) (hb : ∀ b ∈ u, b < 256) :
    efiToUUID o (uuidToEFI o u) = u := by
  match u, hlen with
  | [b0, b1, b2, b3, b4, b5, b6, b7, b8, b9, b10, b11, b12, b13, b14, b15], _ =>
    have h0 : b0 < 256 := hb b0 (by simp)
    have h1 : b1 < 256 := hb b1 (by simp)
    have h2 : b2 < 256 := hb b2 (by simp)
    have h3 : b3 < 256 := hb b3 (by simp)
    have h4 : b4 < 256 := hb b4 (by simp)
    have h5 : b5 < 256 := hb b5 (by simp)
    have h6 : b6 < 256 := hb b6 (by simp)
    have h7 : b7 < 256 := hb b7 (by simp)
    have h8 : b8 < 256 := hb b8 (by simp)
    have h9 : b9 < 256 := hb b9 (by simp)
    cases o <;>
      · simp only [uuidToEFI, efiToUUID, beU32, bo16, boPut16, bePut32,
          List.take, List.drop, List.getD_cons_zero, List.getD_cons_succ,
          List.cons_append, List.nil_append, List.cons.injEq, and_true]
        omega

/-- Witness for C10 at a concrete 16-byte UUID (the EFI global GUID),
little-endian host order. -/
theorem claim10_uuid_efi_roundtrip_witness :
    efiToUUID .little (uuidToEFI .little globalUUID) = globalUUID :=
  claim10_uuid_efi_roundtrip .little globalUUID (by decide) (by decide)

end Goefivar
